import Mathlib

/-!
# Wordle Tournament solver: shallow embedding and verification

A shallow embedding of the guess-constraint solver and suggestion ranker of
the Wordle-Tournament repository (`Wordler.py`, Solver tab), together with
theorems settling the specification's claims about it.

Words are modelled as `List Char` (uppercase strings in the source), the
per-letter feedback as `LetterStatus`, and the Streamlit session's guess log
as a `List GuessEntry`.  The candidate filter (`possible_words`), the letter
frequency table (`letter_counts`), the raw/final scores and the ranked output
(`ranked_data`, `ranked_df`) follow the source line by line.
-/

/-- Per-letter feedback colour: 🟩 Green (Correct), 🟨 Yellow (Present),
⬛ Grey (Absent). -/
inductive LetterStatus where
  | correct
  | present
  | absent
deriving DecidableEq, Repr

/-- One entry of the session's guess log: the guessed word paired with its
per-position feedback (`st.session_state.guesses` entries
`{'word': ..., 'feedback': ...}`). -/
structure GuessEntry where
  word : List Char
  feedback : List LetterStatus
deriving DecidableEq, Repr

/-- Letters of one guess entry marked Correct or Present
(the set comprehension building `local_confirmed_present`, and the inner loop
accumulating `global_confirmed_present`). -/
def confirmedPresent (e : GuessEntry) (c : Char) : Bool :=
  (e.word.zip e.feedback).any fun p =>
    decide (p.1 = c) && decide (p.2 = LetterStatus.correct ∨ p.2 = LetterStatus.present)

/-- Letters marked Correct or Present anywhere in the whole guess log
(`global_confirmed_present`, built by iterating over every entry of
`st.session_state.guesses` before filtering starts). -/
def globalConfirmedPresent (log : List GuessEntry) (c : Char) : Bool :=
  log.any fun e => confirmedPresent e c

/-- `len(w) > i and w[i] == char`. -/
def posEq (w : List Char) (i : Nat) (c : Char) : Bool :=
  decide (w.get? i = some c)

/-- `len(w) > i and w[i] != char`. -/
def posNe (w : List Char) (i : Nat) (c : Char) : Bool :=
  decide (i < w.length ∧ w.get? i ≠ some c)

/-- The filter condition applied for a single position `i` of a guess, with
letter `c` and status `s`: the three branches of the inner `for` loop of the
solver (green / yellow / grey, the grey branch consulting the global and
local confirmed-present sets). -/
def markPred (glob loc : Char → Bool) (i : Nat) (c : Char) (s : LetterStatus)
    (w : List Char) : Bool :=
  match s with
  | .correct => posEq w i c
  | .present => decide (c ∈ w) && posNe w i c
  | .absent =>
      if glob c || loc c then posNe w i c
      else !(decide (c ∈ w))

/-- Sequentially apply the per-position filters of one guess, starting at
position `i`, to the running candidate list (the `enumerate(zip(word, fb))`
loop, each step a list comprehension filter). -/
def applyMarks (glob loc : Char → Bool) : Nat → List (Char × LetterStatus) →
    List (List Char) → List (List Char)
  | _, [], ws => ws
  | i, (c, s) :: rest, ws =>
      applyMarks glob loc (i + 1) rest (ws.filter (markPred glob loc i c s))

/-- Apply one guess entry's filters: computes `local_confirmed_present` from
the entry itself and runs the per-position loop from position 0. -/
def applyEntry (glob : Char → Bool) (e : GuessEntry) (ws : List (List Char)) :
    List (List Char) :=
  applyMarks glob (confirmedPresent e) 0 (e.word.zip e.feedback) ws

/-- The candidate filter: start from a copy of the full catalog
(`possible_words = all_words.copy()`), build `global_confirmed_present` from
the whole log, then fold every guess entry's filters over the running list. -/
def possible_words (all_words : List (List Char)) (guesses : List GuessEntry) :
    List (List Char) :=
  guesses.foldl (fun acc e => applyEntry (globalConfirmedPresent guesses) e acc) all_words

/-- `letter_counts = Counter("".join(possible_words))`: occurrences of a
letter across all characters of all surviving candidates. -/
def letter_counts (ws : List (List Char)) (c : Char) : Nat :=
  ws.flatten.count c

/-- `raw_score = sum(letter_counts[char] for char in set(w))`: frequency
counts summed over the distinct letters of the word. -/
def raw_score (ws : List (List Char)) (w : List Char) : Nat :=
  (w.dedup.map (letter_counts ws)).sum

/-- Round-half-to-even to an integer (Python 3 `round` tie behaviour),
on exact rationals. -/
def roundHalfEven (q : ℚ) : ℤ :=
  let f := ⌊q⌋
  let r := q - f
  if r < 1 / 2 then f
  else if 1 / 2 < r then f + 1
  else if Even f then f else f + 1

/-- `round(x, 2)`: round to 2 decimal places, ties to even. -/
def round2 (q : ℚ) : ℚ :=
  (roundHalfEven (100 * q) : ℚ) / 100

/-- `word_weights.get(w, 0.02)`: the per-word catalog weight, defaulting to
0.02 for a word with no entry in the weight table. -/
def word_weight (tbl : List (List Char × ℚ)) (w : List Char) : ℚ :=
  (tbl.lookup w).getD (1 / 50)

/-- One row of the ranked suggestion table. -/
structure RankedEntry where
  word : List Char
  rawScore : Nat
  weight : ℚ
  finalScore : ℚ
deriving DecidableEq, Repr

/-- `ranked_data`: one row per surviving candidate, with
`"Final Score": round(raw_score * weight, 2)`. -/
def ranked_data (tbl : List (List Char × ℚ)) (ws : List (List Char)) :
    List RankedEntry :=
  ws.map fun w =>
    let raw := raw_score ws w
    let wt := word_weight tbl w
    { word := w, rawScore := raw, weight := wt, finalScore := round2 (raw * wt) }

/-- The sort key of `ranked_df`: `sort_values(by=["Final Score", "Raw Score"],
ascending=False)` — final score descending, raw score descending on ties. -/
def rankedLE (a b : RankedEntry) : Bool :=
  decide (b.finalScore < a.finalScore ∨
    (a.finalScore = b.finalScore ∧ b.rawScore ≤ a.rawScore))

/-- `ranked_df`: the ranked rows sorted by (Final Score desc, Raw Score desc). -/
def ranked_df (tbl : List (List Char × ℚ)) (ws : List (List Char)) :
    List RankedEntry :=
  (ranked_data tbl ws).mergeSort rankedLE

/-- The solver tab's per-session state: the guess log and the text input
(`st.session_state.guesses`, `st.session_state.solver_input`). -/
structure SolverState where
  guesses : List GuessEntry
  solver_input : List Char
deriving DecidableEq, Repr

/-- `reset_solver`: clear the guess log and the text input. -/
def reset_solver (_st : SolverState) : SolverState :=
  { guesses := [], solver_input := [] }

/-- Rejection signal for an invalid guess submission (spec §6/§7). -/
inductive SubmitError where
  | invalidGuess
deriving DecidableEq, Repr

/-- Submitting a guess: the Apply-Logic path only exists when the typed word
has exactly 5 letters and the feedback grid holds one status per letter
(`if guess_input and len(guess_input) == 5`, feedback built letter by
letter); then the guess is appended to the log.  Otherwise the submission is
rejected and the session is unchanged. -/
def submitGuess (st : SolverState) (word : List Char) (fb : List LetterStatus) :
    Except SubmitError SolverState :=
  if word.length = 5 ∧ fb.length = 5 then
    Except.ok { st with guesses := st.guesses ++ [⟨word, fb⟩] }
  else
    Except.error SubmitError.invalidGuess

/-- Number of positions of a guess at which letter `c` is marked Present
(the spec's per-guess minimum occurrence count for a required-present
letter). -/
def presentMarks (e : GuessEntry) (c : Char) : Nat :=
  ((e.word.zip e.feedback).filter fun p =>
    decide (p.1 = c) && decide (p.2 = LetterStatus.present)).length

/-- Spec-side letter frequency (spec §4.3 step 1, stated in the spec's own
words): the count of letter `c` across all characters of all surviving
candidates, as a sum of per-word occurrence counts. -/
def specLetterFrequency (ws : List (List Char)) (c : Char) : Nat :=
  (ws.map fun v => v.count c).sum

/-- Spec-side raw score (spec §4.3 step 2, stated in the spec's own words):
the sum of frequency-table counts over the distinct letters of the word. -/
def specRawScore (ws : List (List Char)) (w : List Char) : Nat :=
  (w.dedup.map (specLetterFrequency ws)).sum

/-! ## Characterisation of the filter loop

The filter loop is a sequence of list-comprehension filters, so the whole of
`possible_words` is a single `List.filter` by the conjunction of all
per-position conditions.  The lemmas below make that precise. -/

/-- Predicate form of `applyMarks`: all per-position conditions of one
guess, starting at position `i`, hold of `w`. -/
def marksAll (glob loc : Char → Bool) : Nat → List (Char × LetterStatus) →
    List Char → Bool
  | _, [], _ => true
  | i, (c, s) :: rest, w =>
      markPred glob loc i c s w && marksAll glob loc (i + 1) rest w

/-- Predicate form of `applyEntry`: every per-position condition of the
guess entry holds of `w`. -/
def entryPred (glob : Char → Bool) (e : GuessEntry) (w : List Char) : Bool :=
  marksAll glob (confirmedPresent e) 0 (e.word.zip e.feedback) w

theorem marksAll_nil (glob loc : Char → Bool) (i : Nat) (w : List Char) :
    marksAll glob loc i [] w = true := rfl

theorem marksAll_cons (glob loc : Char → Bool) (i : Nat) (c : Char)
    (s : LetterStatus) (rest : List (Char × LetterStatus)) (w : List Char) :
    marksAll glob loc i ((c, s) :: rest) w =
      (markPred glob loc i c s w && marksAll glob loc (i + 1) rest w) := rfl

theorem applyMarks_eq_filter (glob loc : Char → Bool) (i : Nat)
    (ms : List (Char × LetterStatus)) (ws : List (List Char)) :
    applyMarks glob loc i ms ws = ws.filter (marksAll glob loc i ms) := by
  induction ms generalizing i ws with
  | nil =>
    rw [applyMarks]
    exact (List.filter_eq_self.mpr fun w _ => rfl).symm
  | cons p rest ih =>
    obtain ⟨c, s⟩ := p
    rw [applyMarks, ih, List.filter_filter]
    exact List.filter_congr fun w _ => by rw [marksAll_cons, Bool.and_comm]

theorem applyEntry_eq_filter (glob : Char → Bool) (e : GuessEntry)
    (ws : List (List Char)) :
    applyEntry glob e ws = ws.filter (entryPred glob e) :=
  applyMarks_eq_filter ..

theorem foldl_applyEntry_eq_filter (glob : Char → Bool) (log : List GuessEntry)
    (cat : List (List Char)) :
    log.foldl (fun acc e => applyEntry glob e acc) cat =
      cat.filter fun w => log.all fun e => entryPred glob e w := by
  induction log generalizing cat with
  | nil =>
    rw [List.foldl_nil]
    exact (List.filter_eq_self.mpr fun w _ => rfl).symm
  | cons e l ih =>
    rw [List.foldl_cons, applyEntry_eq_filter, ih, List.filter_filter]
    exact List.filter_congr fun w _ => by rw [List.all_cons, Bool.and_comm]

/-- `possible_words` is the catalog filtered by the conjunction of every
guess entry's conditions, with the global confirmed-present set taken over
the whole log. -/
theorem possible_words_eq_filter (cat : List (List Char)) (log : List GuessEntry) :
    possible_words cat log =
      cat.filter fun w =>
        log.all fun e => entryPred (globalConfirmedPresent log) e w :=
  foldl_applyEntry_eq_filter ..

theorem mem_possible_words {cat : List (List Char)} {log : List GuessEntry}
    {w : List Char} (hw : w ∈ possible_words cat log) :
    ∀ e ∈ log, entryPred (globalConfirmedPresent log) e w = true := by
  rw [possible_words_eq_filter] at hw
  have := (List.mem_filter.mp hw).2
  exact fun e he => List.all_eq_true.mp this e he

/-- A letter with Correct/Present evidence in a guess occurs in that
guess's word. -/
theorem mem_word_of_confirmedPresent {e : GuessEntry} {c : Char}
    (h : confirmedPresent e c = true) : c ∈ e.word := by
  obtain ⟨⟨a, s⟩, hmem, hp⟩ := List.any_eq_true.mp h
  have ha : a = c := by
    have := (Bool.and_eq_true_iff.mp hp).1
    exact of_decide_eq_true this
  exact ha ▸ (List.of_mem_zip hmem).1

/-- Local Correct/Present evidence in a guess of the log is global
evidence. -/
theorem global_of_confirmedPresent {log : List GuessEntry} {g : GuessEntry}
    {c : Char} (hg : g ∈ log) (h : confirmedPresent g c = true) :
    globalConfirmedPresent log c = true :=
  List.any_eq_true.mpr ⟨g, hg, h⟩

theorem perm_any {α : Type} {l₁ l₂ : List α} (h : l₁.Perm l₂) (p : α → Bool) :
    l₁.any p = l₂.any p := by
  induction h with
  | nil => rfl
  | cons a _ ih => rw [List.any_cons, List.any_cons, ih]
  | swap a b l =>
    rw [List.any_cons, List.any_cons, List.any_cons, List.any_cons,
      Bool.or_left_comm]
  | trans _ _ ih₁ ih₂ => rw [ih₁, ih₂]

theorem perm_all {α : Type} {l₁ l₂ : List α} (h : l₁.Perm l₂) (p : α → Bool) :
    l₁.all p = l₂.all p := by
  induction h with
  | nil => rfl
  | cons a _ ih => rw [List.all_cons, List.all_cons, ih]
  | swap a b l =>
    rw [List.all_cons, List.all_cons, List.all_cons, List.all_cons,
      Bool.and_left_comm]
  | trans _ _ ih₁ ih₂ => rw [ih₁, ih₂]

/-- Extract the per-position condition at index `j` from `marksAll`. -/
theorem marksAll_get? {glob loc : Char → Bool} {w : List Char} :
    ∀ {i : Nat} {ms : List (Char × LetterStatus)} {j : Nat} {c : Char}
      {s : LetterStatus}, marksAll glob loc i ms w = true →
      ms.get? j = some (c, s) → markPred glob loc (i + j) c s w = true := by
  intro i ms
  induction ms generalizing i with
  | nil => intro j c s _ hj; simp at hj
  | cons p rest ih =>
    intro j c s hall hj
    obtain ⟨a, t⟩ := p
    rw [marksAll_cons, Bool.and_eq_true_iff] at hall
    cases j with
    | zero =>
      rw [List.get?_cons_zero, Option.some.injEq] at hj
      have hac : a = c := congrArg Prod.fst hj
      have hts : t = s := congrArg Prod.snd hj
      rw [Nat.add_zero]
      exact hac ▸ hts ▸ hall.1
    | succ j =>
      rw [List.get?_cons_succ] at hj
      have := ih hall.2 hj
      rwa [Nat.add_succ, Nat.succ_add] at this

/-- The raw score agrees with the specification's formulation (frequency
table over surviving candidates, summed over distinct letters). -/
theorem raw_score_eq_spec (ws : List (List Char)) (w : List Char) :
    raw_score ws w = specRawScore ws w := by
  have hfun : letter_counts ws = specLetterFrequency ws :=
    funext fun c => List.count_flatten c ws
  rw [raw_score, specRawScore, hfun]

/-- Filtering by a conjunction keeps at most as many elements as filtering by
the first conjunct alone. -/
theorem length_filter_and_le {α : Type} (p q : α → Bool) (l : List α) :
    (l.filter fun a => p a && q a).length ≤ (l.filter p).length := by
  calc (l.filter fun a => p a && q a).length
      = (l.filter fun a => q a && p a).length := by
        rw [List.filter_congr fun a _ => Bool.and_comm (p a) (q a)]
    _ = ((l.filter p).filter q).length := by rw [List.filter_filter]
    _ ≤ (l.filter p).length := List.length_filter_le _ _

/-- Appending one guess extends the global confirmed-present set by the
guess's own Correct/Present letters. -/
theorem globalConfirmedPresent_append (L : List GuessEntry) (g : GuessEntry)
    (c : Char) :
    globalConfirmedPresent (L ++ [g]) c =
      (globalConfirmedPresent L c || confirmedPresent g c) := by
  rw [globalConfirmedPresent, List.any_append, List.any_cons, List.any_nil,
    Bool.or_false]
  rfl

theorem rankedLE_trans (a b c : RankedEntry) (hab : rankedLE a b)
    (hbc : rankedLE b c) : rankedLE a c := by
  have h1 := of_decide_eq_true hab
  have h2 := of_decide_eq_true hbc
  apply decide_eq_true
  rcases h1 with h1 | ⟨h1e, h1r⟩ <;> rcases h2 with h2 | ⟨h2e, h2r⟩
  · exact Or.inl (lt_trans h2 h1)
  · exact Or.inl (h2e ▸ h1)
  · exact Or.inl (lt_of_lt_of_eq h2 h1e.symm)
  · exact Or.inr ⟨h1e.trans h2e, le_trans h2r h1r⟩

theorem rankedLE_total (a b : RankedEntry) : rankedLE a b || rankedLE b a := by
  rw [Bool.or_eq_true]
  rcases lt_trichotomy a.finalScore b.finalScore with h | h | h
  · exact Or.inr (decide_eq_true (Or.inl h))
  · rcases Nat.le_total b.rawScore a.rawScore with hr | hr
    · exact Or.inl (decide_eq_true (Or.inr ⟨h, hr⟩))
    · exact Or.inr (decide_eq_true (Or.inr ⟨h.symm, hr⟩))
  · exact Or.inl (decide_eq_true (Or.inl h))

/-! ## Claims -/

/-- C6: filtering with an empty guess log returns the full catalog
unchanged — every catalog word survives, in catalog order. -/
theorem empty_log_returns_catalog (cat : List (List Char)) :
    possible_words cat [] = cat := rfl

/-- C9: after `reset_solver` clears the guess log, filtering with the
session's log returns the full catalog, regardless of how many guesses had
accumulated before the reset. -/
theorem reset_restores_full_catalog (cat : List (List Char)) (st : SolverState) :
    possible_words cat (reset_solver st).guesses = cat := rfl

/-- C7: a submission whose word is not exactly 5 letters or whose feedback
does not hold exactly one status per letter is rejected with `invalidGuess`
and produces no state (the session's guess log is untouched); a valid
5-letter guess with 5 statuses is appended to the log. -/
theorem submitGuess_validates (st : SolverState) (word : List Char)
    (fb : List LetterStatus) :
    (¬(word.length = 5 ∧ fb.length = 5) →
      submitGuess st word fb = Except.error SubmitError.invalidGuess) ∧
    ((word.length = 5 ∧ fb.length = 5) →
      submitGuess st word fb =
        Except.ok { st with guesses := st.guesses ++ [⟨word, fb⟩] }) := by
  constructor
  · intro h; rw [submitGuess, if_neg h]
  · intro h; rw [submitGuess, if_pos h]

theorem submitGuess_validates_witness :
    (submitGuess ⟨[], []⟩ ['C', 'A', 'T'] [] =
      Except.error SubmitError.invalidGuess) ∧
    (submitGuess ⟨[], []⟩ ['C', 'R', 'A', 'N', 'E']
        [.correct, .absent, .absent, .absent, .absent] =
      Except.ok ⟨[⟨['C', 'R', 'A', 'N', 'E'],
        [.correct, .absent, .absent, .absent, .absent]⟩], []⟩) :=
  ⟨(submitGuess_validates ⟨[], []⟩ ['C', 'A', 'T'] []).1 (by decide),
   (submitGuess_validates ⟨[], []⟩ ['C', 'R', 'A', 'N', 'E']
      [.correct, .absent, .absent, .absent, .absent]).2 (by decide)⟩

/-- C3: the filtered candidate set is invariant under permutation of the
guess log; in particular `[A, B]` and `[B, A]` yield the same candidates. -/
theorem possible_words_perm_invariant (cat : List (List Char))
    (L L' : List GuessEntry) (h : L.Perm L') :
    possible_words cat L = possible_words cat L' := by
  have hglob : globalConfirmedPresent L = globalConfirmedPresent L' :=
    funext fun c => perm_any h _
  rw [possible_words_eq_filter, possible_words_eq_filter, hglob]
  exact List.filter_congr fun w _ => perm_all h _

theorem possible_words_perm_invariant_witness :
    possible_words [['S', 'L', 'A', 'M', 'S']]
        [⟨['A', 'B', 'C', 'D', 'E'], [.absent, .absent, .absent, .absent, .absent]⟩,
         ⟨['A', 'F', 'G', 'H', 'I'], [.present, .absent, .absent, .absent, .absent]⟩] =
      possible_words [['S', 'L', 'A', 'M', 'S']]
        [⟨['A', 'F', 'G', 'H', 'I'], [.present, .absent, .absent, .absent, .absent]⟩,
         ⟨['A', 'B', 'C', 'D', 'E'], [.absent, .absent, .absent, .absent, .absent]⟩] :=
  possible_words_perm_invariant _ _ _ (List.Perm.swap _ _ _)

/-- C4: every row of the ranked data carries a raw score equal to the spec's
formula — the sum, over the distinct letters of the word (a doubled letter
counted once), of the letter's occurrence count across all characters of all
surviving candidates. -/
theorem ranked_raw_score_spec (tbl : List (List Char × ℚ))
    (ws : List (List Char)) (e : RankedEntry) (he : e ∈ ranked_data tbl ws) :
    e.rawScore = specRawScore ws e.word := by
  obtain ⟨w, _hw, hwe⟩ := List.mem_map.mp he
  subst hwe
  exact raw_score_eq_spec ws w

theorem ranked_raw_score_spec_witness :
    RankedEntry.rawScore
        { word := ['A', 'B', 'B', 'E', 'Y'],
          rawScore := raw_score [['A', 'B', 'B', 'E', 'Y'], ['A', 'D', 'D', 'E', 'R']]
            ['A', 'B', 'B', 'E', 'Y'],
          weight := word_weight [(['A', 'B', 'B', 'E', 'Y'], 1)] ['A', 'B', 'B', 'E', 'Y'],
          finalScore := round2
            ((raw_score [['A', 'B', 'B', 'E', 'Y'], ['A', 'D', 'D', 'E', 'R']]
              ['A', 'B', 'B', 'E', 'Y'] : ℚ) *
              word_weight [(['A', 'B', 'B', 'E', 'Y'], 1)] ['A', 'B', 'B', 'E', 'Y']) } =
      specRawScore [['A', 'B', 'B', 'E', 'Y'], ['A', 'D', 'D', 'E', 'R']]
        ['A', 'B', 'B', 'E', 'Y'] :=
  ranked_raw_score_spec [(['A', 'B', 'B', 'E', 'Y'], 1)]
    [['A', 'B', 'B', 'E', 'Y'], ['A', 'D', 'D', 'E', 'R']] _
    (List.mem_map.mpr ⟨['A', 'B', 'B', 'E', 'Y'], by decide, rfl⟩)

/-- C10: a surviving candidate with no entry in the catalog weight table is
ranked with weight 0.02, and its final score is computed from that weight. -/
theorem missing_weight_defaults (tbl : List (List Char × ℚ))
    (ws : List (List Char)) (e : RankedEntry) (he : e ∈ ranked_data tbl ws)
    (hnone : tbl.lookup e.word = none) :
    e.weight = 1 / 50 ∧
      e.finalScore = round2 ((e.rawScore : ℚ) * (1 / 50)) := by
  obtain ⟨w, _hw, hwe⟩ := List.mem_map.mp he
  subst hwe
  have hnone' : tbl.lookup w = none := hnone
  have hwt : word_weight tbl w = 1 / 50 := by rw [word_weight, hnone']; rfl
  constructor
  · exact hwt
  · show round2 ((raw_score ws w : ℚ) * word_weight tbl w) = _
    rw [hwt]

theorem missing_weight_defaults_witness :
    RankedEntry.weight
        { word := ['A', 'D', 'D', 'E', 'R'],
          rawScore := raw_score [['A', 'B', 'B', 'E', 'Y'], ['A', 'D', 'D', 'E', 'R']]
            ['A', 'D', 'D', 'E', 'R'],
          weight := word_weight [(['A', 'B', 'B', 'E', 'Y'], 1)] ['A', 'D', 'D', 'E', 'R'],
          finalScore := round2
            ((raw_score [['A', 'B', 'B', 'E', 'Y'], ['A', 'D', 'D', 'E', 'R']]
              ['A', 'D', 'D', 'E', 'R'] : ℚ) *
              word_weight [(['A', 'B', 'B', 'E', 'Y'], 1)] ['A', 'D', 'D', 'E', 'R']) } =
      1 / 50 :=
  (missing_weight_defaults [(['A', 'B', 'B', 'E', 'Y'], 1)]
    [['A', 'B', 'B', 'E', 'Y'], ['A', 'D', 'D', 'E', 'R']] _
    (List.mem_map.mpr ⟨['A', 'D', 'D', 'E', 'R'], by decide, rfl⟩)
    (by decide)).1

/-- C5: every row of the ranked output has
`finalScore = round2(rawScore × weight)`, and the output is sorted by final
score descending with raw score descending as the tie-break. -/
theorem ranked_df_sorted_spec (tbl : List (List Char × ℚ)) (ws : List (List Char)) :
    (∀ e ∈ ranked_df tbl ws,
      e.finalScore = round2 ((e.rawScore : ℚ) * e.weight)) ∧
    (ranked_df tbl ws).Pairwise (fun a b =>
      b.finalScore < a.finalScore ∨
        (a.finalScore = b.finalScore ∧ b.rawScore ≤ a.rawScore)) := by
  constructor
  · intro e he
    rw [ranked_df, List.mem_mergeSort] at he
    obtain ⟨w, _hw, hwe⟩ := List.mem_map.mp he
    subst hwe
    rfl
  · exact (List.sorted_mergeSort rankedLE_trans rankedLE_total
      (ranked_data tbl ws)).imp fun h => of_decide_eq_true h

theorem ranked_df_sorted_spec_witness :
    RankedEntry.finalScore
        { word := ['A', 'D', 'D', 'E', 'R'],
          rawScore := raw_score [['A', 'D', 'D', 'E', 'R']] ['A', 'D', 'D', 'E', 'R'],
          weight := word_weight [(['A', 'D', 'D', 'E', 'R'], 1 / 50)] ['A', 'D', 'D', 'E', 'R'],
          finalScore := round2
            ((raw_score [['A', 'D', 'D', 'E', 'R']] ['A', 'D', 'D', 'E', 'R'] : ℚ) *
              word_weight [(['A', 'D', 'D', 'E', 'R'], 1 / 50)] ['A', 'D', 'D', 'E', 'R']) } =
      round2
        ((raw_score [['A', 'D', 'D', 'E', 'R']] ['A', 'D', 'D', 'E', 'R'] : ℚ) *
          word_weight [(['A', 'D', 'D', 'E', 'R'], 1 / 50)] ['A', 'D', 'D', 'E', 'R']) :=
  (ranked_df_sorted_spec [(['A', 'D', 'D', 'E', 'R'], 1 / 50)] [['A', 'D', 'D', 'E', 'R']]).1
    _ (List.mem_mergeSort.mpr
        (List.mem_map.mpr ⟨['A', 'D', 'D', 'E', 'R'], by decide, rfl⟩))

/-- C1 counterexample: in the log `[ABCDE all-Absent, AFGHI with A Present]`,
the letter `A` is marked Absent at position 0 of the *first* guess and has no
Correct/Present mark in that guess or any prior one, yet the word `SLAMS`,
which contains `A`, survives the filter — the code consults evidence from
*later* guesses too, so the claimed global exclusion does not happen. -/
theorem absent_rule_counterexample :
    confirmedPresent ⟨['A', 'B', 'C', 'D', 'E'],
        [.absent, .absent, .absent, .absent, .absent]⟩ 'A' = false ∧
    'A' ∈ ['S', 'L', 'A', 'M', 'S'] ∧
    possible_words [['S', 'L', 'A', 'M', 'S']]
        [⟨['A', 'B', 'C', 'D', 'E'], [.absent, .absent, .absent, .absent, .absent]⟩,
         ⟨['A', 'F', 'G', 'H', 'I'], [.present, .absent, .absent, .absent, .absent]⟩] =
      [['S', 'L', 'A', 'M', 'S']] := by decide

/-- C1 amended: an Absent mark at position `j` is a positional exclusion when
its letter has Correct/Present evidence anywhere in the *whole* log — prior,
same, or later guesses; only a letter with no such evidence anywhere in the
log is excluded globally. -/
theorem absent_mark_rule (cat : List (List Char)) (log : List GuessEntry)
    (w : List Char) (g : GuessEntry) (j : Nat) (c : Char)
    (hw : w ∈ possible_words cat log) (hg : g ∈ log)
    (hj : (g.word.zip g.feedback).get? j = some (c, LetterStatus.absent)) :
    (globalConfirmedPresent log c = true → w.get? j ≠ some c) ∧
    (globalConfirmedPresent log c = false → c ∉ w) := by
  have hentry : marksAll (globalConfirmedPresent log) (confirmedPresent g) 0
      (g.word.zip g.feedback) w = true := mem_possible_words hw g hg
  have hmark := marksAll_get? hentry hj
  rw [Nat.zero_add] at hmark
  cases hglobc : globalConfirmedPresent log c with
  | true =>
    refine ⟨fun _ => ?_, fun hfalse => absurd hfalse (by decide)⟩
    simp only [markPred] at hmark
    rw [hglobc, Bool.true_or] at hmark
    simp only [if_pos rfl] at hmark
    exact (of_decide_eq_true hmark).2
  | false =>
    refine ⟨fun htrue => absurd htrue (by decide), fun _ => ?_⟩
    have hloc : confirmedPresent g c = false := by
      cases hlc : confirmedPresent g c with
      | false => rfl
      | true =>
        exact absurd (hglobc.symm.trans (global_of_confirmedPresent hg hlc))
          (by decide)
    simp only [markPred] at hmark
    rw [hglobc, hloc, Bool.or_false] at hmark
    simp only [Bool.false_eq_true, if_false, Bool.not_eq_true'] at hmark
    exact of_decide_eq_false hmark

theorem absent_mark_rule_witness :
    List.get? ['S', 'L', 'A', 'M', 'S'] 0 ≠ some 'A' :=
  (absent_mark_rule [['S', 'L', 'A', 'M', 'S']]
    [⟨['A', 'B', 'C', 'D', 'E'], [.absent, .absent, .absent, .absent, .absent]⟩,
     ⟨['A', 'F', 'G', 'H', 'I'], [.present, .absent, .absent, .absent, .absent]⟩]
    ['S', 'L', 'A', 'M', 'S']
    ⟨['A', 'B', 'C', 'D', 'E'], [.absent, .absent, .absent, .absent, .absent]⟩
    0 'A' (by decide) (by decide) (by decide)).1 (by decide)

/-- C2 counterexample: appending the guess `AFGHI (A Present)` to the log
`[ABCDE all-Absent]` grows the candidate set from 0 to 1 word — the new
Present evidence for `A` retroactively weakens the first guess's global
exclusion of `A` into a positional one. -/
theorem monotonicity_counterexample :
    (possible_words [['S', 'L', 'A', 'M', 'S']]
        [⟨['A', 'B', 'C', 'D', 'E'],
          [.absent, .absent, .absent, .absent, .absent]⟩]).length = 0 ∧
    (possible_words [['S', 'L', 'A', 'M', 'S']]
        [⟨['A', 'B', 'C', 'D', 'E'], [.absent, .absent, .absent, .absent, .absent]⟩,
         ⟨['A', 'F', 'G', 'H', 'I'],
          [.present, .absent, .absent, .absent, .absent]⟩]).length = 1 := by
  decide

/-- C2 amended: appending a guess never increases the candidate set size
provided the appended guess brings no new Correct/Present evidence (every
letter it marks Correct or Present already had such evidence in the log);
without that proviso the size can grow. -/
theorem append_guess_monotone_of_no_new_evidence (cat : List (List Char))
    (L : List GuessEntry) (g : GuessEntry)
    (h : ∀ c ∈ g.word, confirmedPresent g c = true →
      globalConfirmedPresent L c = true) :
    (possible_words cat (L ++ [g])).length ≤ (possible_words cat L).length := by
  have hglob : globalConfirmedPresent (L ++ [g]) = globalConfirmedPresent L := by
    funext c
    rw [globalConfirmedPresent_append]
    cases hcb : confirmedPresent g c with
    | false => rw [Bool.or_false]
    | true => rw [h c (mem_word_of_confirmedPresent hcb) hcb, Bool.true_or]
  rw [possible_words_eq_filter, possible_words_eq_filter, hglob]
  have hsplit : ∀ w : List Char,
      ((L ++ [g]).all fun e => entryPred (globalConfirmedPresent L) e w) =
        ((L.all fun e => entryPred (globalConfirmedPresent L) e w) &&
          entryPred (globalConfirmedPresent L) g w) := by
    intro w
    rw [List.all_append, List.all_cons, List.all_nil, Bool.and_true]
  rw [List.filter_congr fun w _ => hsplit w]
  exact length_filter_and_le _ _ _

theorem append_guess_monotone_witness :
    (possible_words [['S', 'L', 'A', 'M', 'S']]
        ([⟨['A', 'F', 'G', 'H', 'I'], [.present, .absent, .absent, .absent, .absent]⟩] ++
          [⟨['A', 'B', 'C', 'D', 'E'],
            [.absent, .absent, .absent, .absent, .absent]⟩])).length ≤
      (possible_words [['S', 'L', 'A', 'M', 'S']]
        [⟨['A', 'F', 'G', 'H', 'I'],
          [.present, .absent, .absent, .absent, .absent]⟩]).length :=
  append_guess_monotone_of_no_new_evidence _ _ _ (by decide)

/-- C8 counterexample: the guess `XXQQQ` marks `X` Present twice, yet the
word `ABXAB`, containing a single `X`, survives the filter — the Present
branch only requires containment, never a minimum occurrence count. -/
theorem present_min_count_counterexample :
    presentMarks ⟨['X', 'X', 'Q', 'Q', 'Q'],
        [.present, .present, .absent, .absent, .absent]⟩ 'X' = 2 ∧
    possible_words [['A', 'B', 'X', 'A', 'B']]
        [⟨['X', 'X', 'Q', 'Q', 'Q'],
          [.present, .present, .absent, .absent, .absent]⟩] =
      [['A', 'B', 'X', 'A', 'B']] ∧
    List.count 'X' ['A', 'B', 'X', 'A', 'B'] = 1 := by decide

/-- C8 amended: a Present mark forces containment only — if a letter is
marked Present at least once in a guess of the log, every surviving
candidate contains at least one occurrence of it (no minimum tied to the
number of Present marks is enforced). -/
theorem present_mark_requires_containment (cat : List (List Char))
    (log : List GuessEntry) (w : List Char) (g : GuessEntry) (c : Char)
    (hw : w ∈ possible_words cat log) (hg : g ∈ log)
    (hk : 1 ≤ presentMarks g c) : 1 ≤ w.count c := by
  have hne : ((g.word.zip g.feedback).filter fun p =>
      decide (p.1 = c) && decide (p.2 = LetterStatus.present)) ≠ [] := by
    intro hnil
    rw [presentMarks, hnil] at hk
    exact absurd hk (by decide)
  obtain ⟨p, hp⟩ := List.exists_mem_of_ne_nil _ hne
  obtain ⟨a, s⟩ := p
  have hmem := List.mem_filter.mp hp
  have hand := Bool.and_eq_true_iff.mp hmem.2
  have hac : a = c := of_decide_eq_true hand.1
  have hsp : s = LetterStatus.present := of_decide_eq_true hand.2
  have hmem1 : (c, LetterStatus.present) ∈ g.word.zip g.feedback := by
    rw [← hac, ← hsp]; exact hmem.1
  obtain ⟨j, hj⟩ := List.mem_iff_get?.mp hmem1
  have hentry : marksAll (globalConfirmedPresent log) (confirmedPresent g) 0
      (g.word.zip g.feedback) w = true := mem_possible_words hw g hg
  have hmark := marksAll_get? hentry hj
  simp only [markPred] at hmark
  have hcw : c ∈ w := of_decide_eq_true (Bool.and_eq_true_iff.mp hmark).1
  exact List.count_pos_iff.mpr hcw

theorem present_mark_requires_containment_witness :
    1 ≤ List.count 'X' ['A', 'B', 'X', 'A', 'B'] :=
  present_mark_requires_containment [['A', 'B', 'X', 'A', 'B']]
    [⟨['X', 'X', 'Q', 'Q', 'Q'], [.present, .present, .absent, .absent, .absent]⟩]
    ['A', 'B', 'X', 'A', 'B']
    ⟨['X', 'X', 'Q', 'Q', 'Q'], [.present, .present, .absent, .absent, .absent]⟩
    'X' (by decide) (by decide) (by decide)
